import Mathlib

/-!
# Yellow-region detector (`native-lib.cpp`)

A shallow embedding of `Java_com_example_robotarm_common_CameraColor_detectYellow`
(`src/app/src/main/jni/native-lib.cpp`) and the properties of its detection
pipeline.

Conventions of the embedding.

* `cv::Point` is a pair of integers; a contour (`std::vector<cv::Point>`) is a
  list of points; the contour vector is a list of contours.
* `double` and `float` values are embedded as exact rationals.  Every value the
  function computes is an integer or a half-integer built from pixel
  coordinates, which binary floating point represents exactly at image sizes.
* The OpenCV routines the function calls (`cv::contourArea`,
  `cv::boundingRect`, `cv::cvtColor`, `cv::inRange`) are library code outside
  the repository; they are modelled from the specification.  `cv::findContours`
  is taken as a parameter.
* The loop counter `int i` is an unbounded natural number: the contour count of
  an image never approaches `2^31`.
-/

namespace RobotArm

/-! ## Data model -/

/-- Integer pixel coordinate, `cv::Point`. -/
structure Point where
  x : Int
  y : Int
deriving DecidableEq

/-- One traced boundary, `std::vector<cv::Point>`. -/
abbrev Contour := List Point

/-- Integer rectangle, `cv::Rect`: top-left corner and extent. -/
structure Rect where
  x : Int
  y : Int
  width : Int
  height : Int
deriving DecidableEq

/-- Ways the native function can fail to deliver a float array. -/
inductive Fault where
  | nullReturned
  | indexOutOfRange
deriving DecidableEq

/-! ## Library routines -/

/-- One summand of the shoelace sum, `prev.x * p.y - prev.y * p.x`. -/
def crossTerm (prev p : Point) : Int := prev.x * p.y - prev.y * p.x

/-- Running shoelace sum over `pts`, with `prev` the point before the first. -/
def shoelaceFrom : Point → List Point → Int
  | _, [] => 0
  | prev, p :: ps => crossTerm prev p + shoelaceFrom p ps

/-- Shoelace sum along the open path through `pts` (no closing edge). -/
def pathSum : List Point → Int
  | [] => 0
  | p :: ps => shoelaceFrom p ps

/-- Closed shoelace sum: the point before the first one is the last one. -/
def shoelace (c : Contour) : Int :=
  match c.getLast? with
  | none => 0
  | some last => shoelaceFrom last c

/-- Modelled from the spec: `cv::contourArea` (library code, not under `src/`).
The spec (§4.4) gives "the signed polygon area formula (shoelace sum), taking
the absolute value": the closed shoelace sum is halved and its absolute value
returned; an empty contour has area 0. -/
def contourArea (c : Contour) : ℚ := |(shoelace c : ℚ) * (1 / 2)|

/-- Modelled from the spec: `cv::boundingRect` (library code, not under `src/`).
The spec (§4.5) gives the minimal axis-aligned box covering all points, with
`left = min x`, `top = min y`, `right = max x + 1`, `bottom = max y + 1`; as a
`cv::Rect` that is the corner `(min x, min y)` with width `max x - min x + 1`
and height `max y - min y + 1`.  An empty point set gives the zero rectangle. -/
def boundingRect : Contour → Rect
  | [] => ⟨0, 0, 0, 0⟩
  | p :: ps =>
    let xmin := ps.foldl (fun m q => min m q.x) p.x
    let ymin := ps.foldl (fun m q => min m q.y) p.y
    let xmax := ps.foldl (fun m q => max m q.x) p.x
    let ymax := ps.foldl (fun m q => max m q.y) p.y
    ⟨xmin, ymin, xmax - xmin + 1, ymax - ymin + 1⟩

/-! ## Selection loop and result encoding (source lines 42-71) -/

/-- The two loop variables `maxArea` and `maxAreaIdx`. -/
structure SelState where
  maxArea : ℚ
  maxAreaIdx : Int
deriving DecidableEq

/-- Values before the loop: `double maxArea = 0; int maxAreaIdx = -1;`. -/
def initState : SelState := ⟨0, -1⟩

/-- Loop body at index `i`:
`double area = cv::contourArea(contours[i]); if (area > maxArea) {...}`. -/
def loopStep (st : SelState) (i : Nat) (c : Contour) : SelState :=
  let area := contourArea c
  if area > st.maxArea then ⟨area, (i : Int)⟩ else st

/-- The loop `for (int i = ...; i < contours.size(); i++)` over the remaining
contours, `i` being the index of the first of them. -/
def selectLoop : List Contour → Nat → SelState → SelState
  | [], _, st => st
  | c :: cs, i, st => selectLoop cs (i + 1) (loopStep st i c)

/-- Element access `contours[idx]` with an `int` index; `none` when the index
lies outside `0 .. size-1`, where the C++ access is undefined. -/
def vectorAt (contours : List Contour) (idx : Int) : Option Contour :=
  if 0 ≤ idx then contours[idx.toNat]? else none

/-- Lines 59-64: the five floats written in the found branch for the selected
contour `c`: `rect = cv::boundingRect(c)`, then
`[1.0, rect.x, rect.y, rect.x + rect.width, rect.y + rect.height]`. -/
def foundResult (c : Contour) : List ℚ :=
  [1, ((boundingRect c).x : ℚ), ((boundingRect c).y : ℚ),
    (((boundingRect c).x + (boundingRect c).width : Int) : ℚ),
    (((boundingRect c).y + (boundingRect c).height : Int) : ℚ)]

/-- Lines 42-71 of the native function, from the extracted contours to the
returned five floats `[found, left, top, right, bottom]`. -/
def detectYellowContours (contours : List Contour) : Except Fault (List ℚ) :=
  let st := selectLoop contours 0 initState
  if st.maxArea > 500 ∧ st.maxAreaIdx ≠ -1 then
    match vectorAt contours st.maxAreaIdx with
    | none => Except.error Fault.indexOutOfRange
    | some c => Except.ok (foundResult c)
  else Except.ok [0, 0, 0, 0, 0]

/-! ## Colour conversion, thresholding and the whole function (source lines 14-72) -/

/-- One pixel of the locked bitmap, four 8-bit channels in RGBA order. -/
structure RGBA where
  r : Nat
  g : Nat
  b : Nat
  a : Nat
deriving DecidableEq

/-- Three-channel pixel after `cv::COLOR_RGBA2RGB`. -/
structure RGB where
  r : Nat
  g : Nat
  b : Nat
deriving DecidableEq

/-- Three-channel pixel after `cv::COLOR_RGB2HSV`: hue, saturation, value. -/
structure HSV where
  h : Nat
  s : Nat
  v : Nat
deriving DecidableEq

/-- Image matrix, `cv::Mat`: dimensions and the pixel at (row, column). -/
structure Mat (α : Type) where
  rows : Nat
  cols : Nat
  px : Nat → Nat → α

/-- What the JNI bitmap calls deliver: the return codes of
`AndroidBitmap_getInfo` and `AndroidBitmap_lockPixels`, the dimensions read
into `info`, and the locked pixel buffer. -/
structure Bitmap where
  getInfo : Int
  lockPixels : Int
  height : Nat
  width : Nat
  pixels : Nat → Nat → RGBA

/-- Apply a per-pixel function to a matrix. -/
def Mat.mapPx {α β : Type} (f : α → β) (m : Mat α) : Mat β :=
  ⟨m.rows, m.cols, fun i j => f (m.px i j)⟩

/-- Integer quotient rounded to the nearest integer (`d > 0`). -/
def roundDiv (n d : Int) : Int := (2 * n + d) / (2 * d)

/-- Modelled from the spec: `cv::cvtColor(_, _, cv::COLOR_RGBA2RGB)` on one
pixel (library code, not under `src/`): the alpha channel is dropped. -/
def rgba2rgb (p : RGBA) : RGB := ⟨p.r, p.g, p.b⟩

/-- Modelled from the spec: `cv::cvtColor(_, _, cv::COLOR_RGB2HSV)` on one
8-bit pixel (library code, not under `src/`).  The spec (§4.1) gives the
"standard RGB→HSV conversion with hue quantized to the range [0,180)":
value is `max(R,G,B)`; saturation is `255 * (V - min) / V`, and 0 when `V = 0`;
hue is the standard sextant formula in degrees, halved, and 0 when
`R = G = B`.  Quotients are rounded to the nearest integer. -/
def rgb2hsv (p : RGB) : HSV :=
  let v := max p.r (max p.g p.b)
  let vmin := min p.r (min p.g p.b)
  let diff := v - vmin
  let s := if v = 0 then 0 else (roundDiv (255 * (diff : Int)) (v : Int)).toNat
  let r : Int := p.r
  let g : Int := p.g
  let b : Int := p.b
  let d : Int := diff
  let hnum : Int :=
    if v = p.r then 30 * (g - b)
    else if v = p.g then 60 * d + 30 * (b - r)
    else 120 * d + 30 * (r - g)
  let h0 : Int := if diff = 0 then 0 else roundDiv hnum d
  let h : Int := if h0 < 0 then h0 + 180 else h0
  ⟨h.toNat, s, v⟩

/-- Modelled from the spec: `cv::inRange` on one pixel (library code, not under
`src/`).  The spec (§4.2): "foreground iff all three channels lie within the
inclusive [lower, upper] range component-wise"; foreground is 255, background
is 0. -/
def inRangePx (lower upper p : HSV) : Nat :=
  if lower.h ≤ p.h ∧ p.h ≤ upper.h ∧ lower.s ≤ p.s ∧ p.s ≤ upper.s ∧
      lower.v ≤ p.v ∧ p.v ≤ upper.v then 255 else 0

/-- Lower bound of the yellow band, `cv::Scalar lower(20, 100, 100)`. -/
def lower : HSV := ⟨20, 100, 100⟩

/-- Upper bound of the yellow band, `cv::Scalar upper(35, 255, 255)`. -/
def upper : HSV := ⟨35, 255, 255⟩

/-- Lines 25-33: the mask computed from the image. -/
def yellowMask (img : Mat RGBA) : Mat Nat :=
  let hsv := (img.mapPx rgba2rgb).mapPx rgb2hsv
  hsv.mapPx (inRangePx lower upper)

/-- A mask without foreground: every pixel inside the dimensions is 0. -/
def Mat.noForeground (m : Mat Nat) : Prop :=
  ∀ i j, i < m.rows → j < m.cols → m.px i j = 0

/-- The native function `Java_com_example_robotarm_common_CameraColor_detectYellow`.
`findContours` stands for
`cv::findContours(mask, contours, cv::RETR_EXTERNAL, cv::CHAIN_APPROX_SIMPLE)`;
a `nullptr` return is `Fault.nullReturned`. -/
def detectYellow (findContours : Mat Nat → List Contour) (bitmap : Bitmap) :
    Except Fault (List ℚ) :=
  if bitmap.getInfo < 0 then Except.error Fault.nullReturned
  else if bitmap.lockPixels < 0 then Except.error Fault.nullReturned
  else
    let img : Mat RGBA := ⟨bitmap.height, bitmap.width, bitmap.pixels⟩
    let mask := yellowMask img
    let contours := findContours mask
    detectYellowContours contours

/-- The outer contour of a filled axis-aligned square of side `n` pixels with
top-left pixel `(x0, y0)`: its four corner pixels. -/
def squareContour (x0 y0 : Int) (n : Nat) : Contour :=
  [⟨x0, y0⟩, ⟨x0, y0 + (n : Int) - 1⟩, ⟨x0 + (n : Int) - 1, y0 + (n : Int) - 1⟩,
    ⟨x0 + (n : Int) - 1, y0⟩]

/-- One single-point contour for every foreground pixel of row `i`, put in
front of `acc`. -/
def rowContours (m : Mat Nat) (i : Nat) (acc : List Contour) : List Contour :=
  (List.range m.cols).foldr
    (fun j acc2 => if m.px i j = 0 then acc2 else [Point.mk (j : Int) (i : Int)] :: acc2) acc

/-- A toy extractor: one single-point contour for every foreground pixel of the
mask, in row-major order. -/
def pixelContours (m : Mat Nat) : List Contour :=
  (List.range m.rows).foldr (fun i acc => rowContours m i acc) []

/-- A 2 x 3 bitmap, successfully locked, every pixel opaque black. -/
def blackBitmap : Bitmap := ⟨0, 0, 2, 3, fun _ _ => ⟨0, 0, 0, 255⟩⟩

/-! ## Facts about the selection loop -/

theorem loopStep_maxArea_ge (st : SelState) (i : Nat) (c : Contour) :
    st.maxArea ≤ (loopStep st i c).maxArea ∧ contourArea c ≤ (loopStep st i c).maxArea := by
  unfold loopStep
  by_cases h : contourArea c > st.maxArea
  · simp only [h, if_true]
    exact ⟨le_of_lt h, le_refl _⟩
  · simp only [h, if_false]
    exact ⟨le_refl _, not_lt.mp h⟩

theorem selectLoop_maxArea_ge (cs : List Contour) :
    ∀ (i : Nat) (st : SelState), st.maxArea ≤ (selectLoop cs i st).maxArea := by
  induction cs with
  | nil => intro i st; exact le_refl _
  | cons c cs ih =>
    intro i st
    exact le_trans (loopStep_maxArea_ge st i c).1 (ih (i + 1) (loopStep st i c))

theorem selectLoop_upper (cs : List Contour) :
    ∀ (i : Nat) (st : SelState), ∀ c ∈ cs, contourArea c ≤ (selectLoop cs i st).maxArea := by
  induction cs with
  | nil => intro i st c hc; cases hc
  | cons c cs ih =>
    intro i st d hd
    rcases List.mem_cons.mp hd with h | h
    · subst h
      exact le_trans (loopStep_maxArea_ge st i d).2 (selectLoop_maxArea_ge cs (i + 1) _)
    · exact ih (i + 1) _ d h

/-- Either the loop leaves the state alone (no contour beats the incoming
`maxArea`), or it ends on the first contour that attains the largest area. -/
theorem selectLoop_cases (cs : List Contour) :
    ∀ (i : Nat) (st : SelState),
      (selectLoop cs i st = st ∧ ∀ c ∈ cs, contourArea c ≤ st.maxArea) ∨
      ∃ (k : Nat) (c : Contour), cs[k]? = some c ∧
        (selectLoop cs i st).maxAreaIdx = ((i + k : Nat) : Int) ∧
        (selectLoop cs i st).maxArea = contourArea c ∧
        st.maxArea < contourArea c ∧
        ∀ (j : Nat) (d : Contour), j < k → cs[j]? = some d → contourArea d < contourArea c := by
  induction cs with
  | nil => intro i st; left; exact ⟨rfl, fun c hc => by cases hc⟩
  | cons c cs ih =>
    intro i st
    by_cases h : contourArea c > st.maxArea
    · have hstep : loopStep st i c = ⟨contourArea c, (i : Int)⟩ := by
        unfold loopStep; simp only [h, if_true]
      rcases ih (i + 1) (loopStep st i c) with ⟨heq, _⟩ | ⟨k, d, hk, hidx, harea, hlt, hfirst⟩
      · right
        refine ⟨0, c, by simp, ?_, ?_, h, ?_⟩
        · show (selectLoop cs (i + 1) (loopStep st i c)).maxAreaIdx = _
          rw [heq, hstep]; simp
        · show (selectLoop cs (i + 1) (loopStep st i c)).maxArea = _
          rw [heq, hstep]
        · intro j d hj; omega
      · right
        rw [hstep] at hlt
        refine ⟨k + 1, d, by simpa using hk, ?_, harea, lt_trans h hlt, ?_⟩
        · show (selectLoop cs (i + 1) (loopStep st i c)).maxAreaIdx = _
          rw [hidx]; push_cast; ring
        · intro j e hj he
          cases j with
          | zero =>
            simp only [List.getElem?_cons_zero, Option.some.injEq] at he
            subst he; exact hlt
          | succ j =>
            simp only [List.getElem?_cons_succ] at he
            exact hfirst j e (by omega) he
    · have hstep : loopStep st i c = st := by
        unfold loopStep; simp only [h, if_false]
      rcases ih (i + 1) (loopStep st i c) with ⟨heq, hall⟩ | ⟨k, d, hk, hidx, harea, hlt, hfirst⟩
      · left
        rw [hstep] at heq hall
        refine ⟨?_, ?_⟩
        · show selectLoop cs (i + 1) (loopStep st i c) = st
          rw [hstep]; exact heq
        · intro e he
          rcases List.mem_cons.mp he with h1 | h1
          · subst h1; exact not_lt.mp h
          · exact hall e h1
      · right
        rw [hstep] at hlt
        refine ⟨k + 1, d, by simpa using hk, ?_, harea, hlt, ?_⟩
        · show (selectLoop cs (i + 1) (loopStep st i c)).maxAreaIdx = _
          rw [hidx]; push_cast; ring
        · intro j e hj he
          cases j with
          | zero =>
            simp only [List.getElem?_cons_zero, Option.some.injEq] at he
            subst he; exact lt_of_le_of_lt (not_lt.mp h) hlt
          | succ j =>
            simp only [List.getElem?_cons_succ] at he
            exact hfirst j e (by omega) he

theorem contourArea_nonneg_aux (c : Contour) : 0 ≤ contourArea c := abs_nonneg _

/-- The loop started from `maxArea = 0`, `maxAreaIdx = -1`: either nothing has
positive area and the state is untouched, or the state names the first contour
of largest area. -/
theorem selectLoop_init (cs : List Contour) :
    (selectLoop cs 0 initState = initState ∧ ∀ c ∈ cs, contourArea c = 0) ∨
    ∃ (k : Nat) (c : Contour), cs[k]? = some c ∧
      (selectLoop cs 0 initState).maxAreaIdx = (k : Int) ∧
      (selectLoop cs 0 initState).maxArea = contourArea c ∧
      0 < contourArea c ∧
      (∀ d ∈ cs, contourArea d ≤ contourArea c) ∧
      ∀ (j : Nat) (d : Contour), j < k → cs[j]? = some d → contourArea d < contourArea c := by
  rcases selectLoop_cases cs 0 initState with ⟨heq, hall⟩ | ⟨k, c, hk, hidx, harea, hlt, hfirst⟩
  · left
    refine ⟨heq, fun c hc => le_antisymm ?_ (contourArea_nonneg_aux c)⟩
    exact hall c hc
  · right
    refine ⟨k, c, hk, by simpa using hidx, harea, hlt, ?_, hfirst⟩
    intro d hd
    rw [← harea]
    exact selectLoop_upper cs 0 initState d hd

theorem vectorAt_natCast (cs : List Contour) (k : Nat) : vectorAt cs (k : Int) = cs[k]? := by
  unfold vectorAt
  simp

/-- The two outcomes of lines 42-71: the zero result when no contour has area
above 500, the box of the first contour of largest area otherwise. -/
theorem detectYellowContours_cases (cs : List Contour) :
    (detectYellowContours cs = Except.ok [0, 0, 0, 0, 0] ∧ ∀ c ∈ cs, contourArea c ≤ 500) ∨
    ∃ (k : Nat) (c : Contour), cs[k]? = some c ∧ 500 < contourArea c ∧
      (selectLoop cs 0 initState).maxAreaIdx = (k : Int) ∧
      (∀ d ∈ cs, contourArea d ≤ contourArea c) ∧
      (∀ (j : Nat) (d : Contour), j < k → cs[j]? = some d → contourArea d < contourArea c) ∧
      detectYellowContours cs = Except.ok (foundResult c) := by
  rcases selectLoop_init cs with ⟨heq, hall⟩ | ⟨k, c, hk, hidx, harea, hpos, hmax, hfirst⟩
  · left
    refine ⟨?_, fun c hc => by rw [hall c hc]; norm_num⟩
    unfold detectYellowContours
    rw [heq]
    simp [initState]
  · by_cases hbig : 500 < contourArea c
    · right
      refine ⟨k, c, hk, hbig, hidx, hmax, hfirst, ?_⟩
      unfold detectYellowContours
      have hne : ((k : Int) ≠ -1) := by omega
      simp only [hidx, harea, gt_iff_lt, hbig, ne_eq, hne, not_false_eq_true, and_self, if_true,
        vectorAt_natCast, hk, foundResult]
    · left
      refine ⟨?_, fun d hd => le_trans (hmax d hd) (not_lt.mp hbig)⟩
      unfold detectYellowContours
      simp only [harea, gt_iff_lt, hbig, false_and, if_false]

/-! ## Facts about the bounding rectangle -/

theorem foldl_min_spec (f : Point → Int) (ps : List Point) :
    ∀ a : Int, (ps.foldl (fun m q => min m (f q)) a ≤ a ∧
      ∀ q ∈ ps, ps.foldl (fun m q => min m (f q)) a ≤ f q) ∧
      (ps.foldl (fun m q => min m (f q)) a = a ∨
        ∃ q ∈ ps, ps.foldl (fun m q => min m (f q)) a = f q) := by
  induction ps with
  | nil => intro a; simp
  | cons p ps ih =>
    intro a
    obtain ⟨⟨h1, h2⟩, h3⟩ := ih (min a (f p))
    simp only [List.foldl_cons, List.mem_cons, forall_eq_or_imp, exists_eq_or_imp]
    refine ⟨⟨le_trans h1 (min_le_left _ _), le_trans h1 (min_le_right _ _), h2⟩, ?_⟩
    rcases h3 with h | ⟨q, hq, h⟩
    · rcases min_choice a (f p) with hm | hm
      · left; rw [h, hm]
      · right; left; rw [h, hm]
    · right; right; exact ⟨q, hq, h⟩

theorem foldl_max_spec (f : Point → Int) (ps : List Point) :
    ∀ a : Int, (a ≤ ps.foldl (fun m q => max m (f q)) a ∧
      ∀ q ∈ ps, f q ≤ ps.foldl (fun m q => max m (f q)) a) ∧
      (ps.foldl (fun m q => max m (f q)) a = a ∨
        ∃ q ∈ ps, ps.foldl (fun m q => max m (f q)) a = f q) := by
  induction ps with
  | nil => intro a; simp
  | cons p ps ih =>
    intro a
    obtain ⟨⟨h1, h2⟩, h3⟩ := ih (max a (f p))
    simp only [List.foldl_cons, List.mem_cons, forall_eq_or_imp, exists_eq_or_imp]
    refine ⟨⟨le_trans (le_max_left _ _) h1, le_trans (le_max_right _ _) h1, h2⟩, ?_⟩
    rcases h3 with h | ⟨q, hq, h⟩
    · rcases max_choice a (f p) with hm | hm
      · left; rw [h, hm]
      · right; left; rw [h, hm]
    · right; right; exact ⟨q, hq, h⟩

/-- For a non-empty contour the rectangle's corner is the least `x` and least
`y` over its points, and corner plus extent is one past the greatest. -/
theorem boundingRect_spec (c : Contour) (hc : c ≠ []) :
    IsLeast {v : Int | ∃ p ∈ c, p.x = v} (boundingRect c).x ∧
    IsLeast {v : Int | ∃ p ∈ c, p.y = v} (boundingRect c).y ∧
    IsGreatest {v : Int | ∃ p ∈ c, p.x = v} ((boundingRect c).x + (boundingRect c).width - 1) ∧
    IsGreatest {v : Int | ∃ p ∈ c, p.y = v} ((boundingRect c).y + (boundingRect c).height - 1) := by
  cases c with
  | nil => exact absurd rfl hc
  | cons p ps =>
    obtain ⟨⟨a1, a2⟩, a3⟩ := foldl_min_spec (fun q => q.x) ps p.x
    obtain ⟨⟨b1, b2⟩, b3⟩ := foldl_min_spec (fun q => q.y) ps p.y
    obtain ⟨⟨c1, c2⟩, c3⟩ := foldl_max_spec (fun q => q.x) ps p.x
    obtain ⟨⟨d1, d2⟩, d3⟩ := foldl_max_spec (fun q => q.y) ps p.y
    simp only [boundingRect]
    have e1 : ∀ a b : Int, a + (b - a + 1) - 1 = b := fun a b => by ring
    rw [e1, e1]
    refine ⟨⟨?_, ?_⟩, ⟨?_, ?_⟩, ⟨?_, ?_⟩, ⟨?_, ?_⟩⟩
    · rcases a3 with h | ⟨q, hq, h⟩
      · exact ⟨p, List.mem_cons_self _ _, h.symm⟩
      · exact ⟨q, List.mem_cons_of_mem _ hq, h.symm⟩
    · rintro v ⟨q, hq, rfl⟩
      rcases List.mem_cons.mp hq with h | h
      · subst h; exact a1
      · exact a2 q h
    · rcases b3 with h | ⟨q, hq, h⟩
      · exact ⟨p, List.mem_cons_self _ _, h.symm⟩
      · exact ⟨q, List.mem_cons_of_mem _ hq, h.symm⟩
    · rintro v ⟨q, hq, rfl⟩
      rcases List.mem_cons.mp hq with h | h
      · subst h; exact b1
      · exact b2 q h
    · rcases c3 with h | ⟨q, hq, h⟩
      · exact ⟨p, List.mem_cons_self _ _, h.symm⟩
      · exact ⟨q, List.mem_cons_of_mem _ hq, h.symm⟩
    · rintro v ⟨q, hq, rfl⟩
      rcases List.mem_cons.mp hq with h | h
      · subst h; exact c1
      · exact c2 q h
    · rcases d3 with h | ⟨q, hq, h⟩
      · exact ⟨p, List.mem_cons_self _ _, h.symm⟩
      · exact ⟨q, List.mem_cons_of_mem _ hq, h.symm⟩
    · rintro v ⟨q, hq, rfl⟩
      rcases List.mem_cons.mp hq with h | h
      · subst h; exact d1
      · exact d2 q h

theorem contourArea_nil : contourArea [] = 0 := by
  simp [contourArea, shoelace]

theorem ne_nil_of_area_pos (c : Contour) (h : 0 < contourArea c) : c ≠ [] := by
  rintro rfl
  rw [contourArea_nil] at h
  exact lt_irrefl _ h

/-! ## Facts about the shoelace sum -/

theorem crossTerm_antisymm (p q : Point) : crossTerm q p = - crossTerm p q := by
  unfold crossTerm; ring

theorem shoelaceFrom_concat (l : List Point) :
    ∀ (prev q : Point),
      shoelaceFrom prev (l ++ [q]) = shoelaceFrom prev l + crossTerm (l.getLastD prev) q := by
  induction l with
  | nil => intro prev q; simp [shoelaceFrom]
  | cons a l ih =>
    intro prev q
    rw [List.cons_append]
    simp only [shoelaceFrom, List.getLastD_cons]
    rw [ih a q]
    ring

theorem shoelace_cons (p : Point) (ps : List Point) :
    shoelace (p :: ps) = crossTerm (ps.getLastD p) p + shoelaceFrom p ps := by
  simp [shoelace, List.getLast?_cons, shoelaceFrom]

theorem shoelace_concat (p : Point) (ps : List Point) :
    shoelace (ps ++ [p]) = shoelace (p :: ps) := by
  rw [shoelace_cons]
  have hlast : (ps ++ [p]).getLast? = some p := by simp
  simp only [shoelace, hlast]
  rw [shoelaceFrom_concat]
  ring

theorem shoelace_rotate_one (l : List Point) : shoelace (l.rotate 1) = shoelace l := by
  cases l with
  | nil => rfl
  | cons p ps =>
    rw [List.rotate_cons_succ, List.rotate_zero]
    exact shoelace_concat p ps

theorem shoelace_rotate (l : List Point) (n : Nat) : shoelace (l.rotate n) = shoelace l := by
  induction n with
  | zero => rw [List.rotate_zero]
  | succ n ih =>
    rw [← List.rotate_rotate, shoelace_rotate_one, ih]

theorem pathSum_concat_concat (l : List Point) (a q : Point) :
    pathSum (l ++ [a] ++ [q]) = pathSum (l ++ [a]) + crossTerm a q := by
  cases l with
  | nil => simp [pathSum, shoelaceFrom]
  | cons b l =>
    simp only [List.cons_append, pathSum]
    rw [shoelaceFrom_concat]
    simp

theorem pathSum_reverse_cons (l : List Point) :
    ∀ prev : Point, pathSum (l.reverse ++ [prev]) = - shoelaceFrom prev l := by
  induction l with
  | nil => intro prev; simp [pathSum, shoelaceFrom]
  | cons a l ih =>
    intro prev
    rw [List.reverse_cons, pathSum_concat_concat, ih a, crossTerm_antisymm prev a]
    simp only [shoelaceFrom]
    ring

theorem shoelaceFrom_eq_pathSum (prev p : Point) (ps : List Point) :
    shoelaceFrom prev (p :: ps) = crossTerm prev p + pathSum (p :: ps) := rfl

theorem shoelace_reverse (l : List Point) : shoelace l.reverse = - shoelace l := by
  cases l with
  | nil => simp [shoelace]
  | cons p ps =>
    rw [shoelace_cons]
    have hlast : (p :: ps).reverse.getLast? = some p := by simp
    have hhead : (p :: ps).reverse.head? = some (ps.getLastD p) := by
      rw [List.head?_reverse, List.getLast?_cons, List.getLastD_eq_getLast?]
    have hpath : pathSum (p :: ps).reverse = - shoelaceFrom p ps := by
      rw [List.reverse_cons]; exact pathSum_reverse_cons ps p
    cases hr : (p :: ps).reverse with
    | nil => simp at hr
    | cons q qs =>
      rw [hr] at hlast hhead hpath
      simp only [List.head?_cons, Option.some.injEq] at hhead
      simp only [shoelace, hlast]
      rw [shoelaceFrom_eq_pathSum, hpath, hhead, crossTerm_antisymm (ps.getLastD p) p]
      ring

theorem shoelaceFrom_const_x (a : Int) (l : List Point) :
    ∀ prev : Point, prev.x = a → (∀ q ∈ l, q.x = a) →
      shoelaceFrom prev l = a * ((l.getLastD prev).y - prev.y) := by
  induction l with
  | nil => intro prev _ _; simp [shoelaceFrom]
  | cons p l ih =>
    intro prev hprev hall
    have hp : p.x = a := hall p (List.mem_cons_self _ _)
    have hl : ∀ q ∈ l, q.x = a := fun q hq => hall q (List.mem_cons_of_mem _ hq)
    simp only [shoelaceFrom, ih p hp hl, List.getLastD_cons, crossTerm, hprev, hp]
    ring

theorem shoelaceFrom_const_y (b : Int) (l : List Point) :
    ∀ prev : Point, prev.y = b → (∀ q ∈ l, q.y = b) →
      shoelaceFrom prev l = b * (prev.x - (l.getLastD prev).x) := by
  induction l with
  | nil => intro prev _ _; simp [shoelaceFrom]
  | cons p l ih =>
    intro prev hprev hall
    have hp : p.y = b := hall p (List.mem_cons_self _ _)
    have hl : ∀ q ∈ l, q.y = b := fun q hq => hall q (List.mem_cons_of_mem _ hq)
    simp only [shoelaceFrom, ih p hp hl, List.getLastD_cons, crossTerm, hprev, hp]
    ring

/-- A contour whose points share one `x` (a vertical line) has shoelace sum 0. -/
theorem shoelace_const_x (a : Int) (c : Contour) (hall : ∀ q ∈ c, q.x = a) : shoelace c = 0 := by
  cases c with
  | nil => simp [shoelace]
  | cons p ps =>
    have hp : p.x = a := hall p (List.mem_cons_self _ _)
    have hl : ∀ q ∈ ps, q.x = a := fun q hq => hall q (List.mem_cons_of_mem _ hq)
    have hlast : (ps.getLastD p).x = a := hall _ (List.getLastD_mem_cons ps p)
    rw [shoelace_cons, shoelaceFrom_const_x a ps p hp hl]
    simp only [crossTerm, hlast, hp]
    ring

/-- A contour whose points share one `y` (a horizontal line) has shoelace sum 0. -/
theorem shoelace_const_y (b : Int) (c : Contour) (hall : ∀ q ∈ c, q.y = b) : shoelace c = 0 := by
  cases c with
  | nil => simp [shoelace]
  | cons p ps =>
    have hp : p.y = b := hall p (List.mem_cons_self _ _)
    have hl : ∀ q ∈ ps, q.y = b := fun q hq => hall q (List.mem_cons_of_mem _ hq)
    have hlast : (ps.getLastD p).y = b := hall _ (List.getLastD_mem_cons ps p)
    rw [shoelace_cons, shoelaceFrom_const_y b ps p hp hl]
    simp only [crossTerm, hlast, hp]
    ring

/-! ## Evaluation on concrete contours -/

theorem contourArea_squareContour (x0 y0 : Int) (n : Nat) :
    contourArea (squareContour x0 y0 n) = (((n : Int) - 1) * ((n : Int) - 1) : Int) := by
  have h : shoelace (squareContour x0 y0 n) = -(2 * (((n : Int) - 1) * ((n : Int) - 1))) := by
    simp only [squareContour, shoelace, List.getLast?, List.getLast, shoelaceFrom, crossTerm]
    ring
  unfold contourArea
  rw [h]
  push_cast
  rw [show (-(2 * (((n : ℚ) - 1) * ((n : ℚ) - 1))) * (1 / 2) : ℚ)
    = -(((n : ℚ) - 1) * ((n : ℚ) - 1)) by ring, abs_neg, abs_mul_self]

theorem shoelace_ne_zero_of_area_pos (c : Contour) (h : 0 < contourArea c) : shoelace c ≠ 0 := by
  intro h0
  simp [contourArea, h0] at h

/-- A contour of positive area spans at least two columns and two rows. -/
theorem boundingRect_extent_ge_two (c : Contour) (h : 0 < contourArea c) :
    2 ≤ (boundingRect c).width ∧ 2 ≤ (boundingRect c).height := by
  obtain ⟨hx, hy, hX, hY⟩ := boundingRect_spec c (ne_nil_of_area_pos c h)
  have hne := shoelace_ne_zero_of_area_pos c h
  constructor
  · by_contra hlt
    apply hne
    apply shoelace_const_x (boundingRect c).x
    intro q hq
    have h1 : (boundingRect c).x ≤ q.x := hx.2 ⟨q, hq, rfl⟩
    have h2 : q.x ≤ (boundingRect c).x + (boundingRect c).width - 1 := hX.2 ⟨q, hq, rfl⟩
    omega
  · by_contra hlt
    apply hne
    apply shoelace_const_y (boundingRect c).y
    intro q hq
    have h1 : (boundingRect c).y ≤ q.y := hy.2 ⟨q, hq, rfl⟩
    have h2 : q.y ≤ (boundingRect c).y + (boundingRect c).height - 1 := hY.2 ⟨q, hq, rfl⟩
    omega

theorem boundingRect_squareContour (x0 y0 : Int) (n : Nat) (hn : 1 ≤ n) :
    boundingRect (squareContour x0 y0 n) = ⟨x0, y0, (n : Int), (n : Int)⟩ := by
  have h1 : x0 ≤ x0 + (n : Int) - 1 := by omega
  have h2 : y0 ≤ y0 + (n : Int) - 1 := by omega
  simp only [squareContour, boundingRect, List.foldl_cons, List.foldl_nil, min_self, max_self,
    min_eq_left h1, min_eq_left h2, max_eq_right h1, max_eq_right h2, max_eq_left h1,
    max_eq_left h2]
  congr 1 <;> ring

theorem detectYellowContours_square23 :
    detectYellowContours [squareContour 0 0 23] = Except.ok [0, 0, 0, 0, 0] := by
  norm_num [detectYellowContours, selectLoop, loopStep, initState, contourArea_squareContour]

theorem detectYellowContours_square24 :
    detectYellowContours [squareContour 0 0 24] = Except.ok [1, 0, 0, 24, 24] := by
  simp [detectYellowContours, selectLoop, loopStep, initState, contourArea_squareContour]
  norm_num [vectorAt, foundResult, boundingRect, squareContour]


/-- With one contour strictly larger than every other, the result is the
result for that contour alone. -/
theorem detectYellowContours_unique_max (cs : List Contour) (c : Contour) (hc : c ∈ cs)
    (huniq : ∀ d ∈ cs, d ≠ c → contourArea d < contourArea c) :
    detectYellowContours cs = detectYellowContours [c] := by
  have hsingle : ∀ r, (500 < contourArea c → r = Except.ok (foundResult c)) →
      (contourArea c ≤ 500 → r = Except.ok [0, 0, 0, 0, 0]) → r = detectYellowContours [c] := by
    intro r h1 h2
    rcases detectYellowContours_cases [c] with ⟨h, hall⟩ | ⟨k, c', hk, hbig, _, _, _, h⟩
    · rw [h]; exact h2 (hall c (List.mem_singleton_self _))
    · have hc' : c' = c := List.mem_singleton.mp (List.getElem?_mem hk)
      subst hc'
      rw [h]; exact h1 hbig
  apply hsingle
  · intro hbig
    rcases detectYellowContours_cases cs with ⟨_, hall⟩ | ⟨k, c', hk, _, _, hmax, _, h⟩
    · exact absurd hbig (not_lt.mpr (hall c hc))
    · have hc' : c' = c := by
        by_contra hne
        exact absurd (huniq c' (List.getElem?_mem hk) hne) (not_lt.mpr (hmax c hc))
      rw [h, hc']
  · intro hsmall
    rcases detectYellowContours_cases cs with ⟨h, _⟩ | ⟨k, c', hk, hbig, _, hmax, _, h⟩
    · exact h
    · have hle : contourArea c' ≤ contourArea c := by
        by_cases hcc : c' = c
        · rw [hcc]
        · exact le_of_lt (huniq c' (List.getElem?_mem hk) hcc)
      exact absurd hbig (not_lt.mpr (le_trans hle hsmall))

theorem detectYellowContours_singleton (c : Contour) (hbig : 500 < contourArea c) :
    detectYellowContours [c] = Except.ok (foundResult c) := by
  rcases detectYellowContours_cases [c] with ⟨_, hall⟩ | ⟨k, c', hk, _, _, _, _, h⟩
  · exact absurd hbig (not_lt.mpr (hall c (List.mem_singleton_self _)))
  · have hc' : c' = c := List.mem_singleton.mp (List.getElem?_mem hk)
    rw [h, hc']


/-! ## Facts about the colour test -/

theorem rgb2hsv_black_v (p : RGBA) (hr : p.r = 0) (hg : p.g = 0) (hb : p.b = 0) :
    (rgb2hsv (rgba2rgb p)).v = 0 := by
  simp [rgb2hsv, rgba2rgb, hr, hg, hb]

theorem inRangePx_of_v_zero (p : HSV) (hv : p.v = 0) : inRangePx lower upper p = 0 := by
  simp [inRangePx, lower, hv]

theorem rowContours_noForeground (m : Mat Nat) (h : m.noForeground) (i : Nat) (hi : i < m.rows)
    (acc : List Contour) : rowContours m i acc = acc := by
  unfold rowContours
  have : ∀ (js : List Nat), (∀ j ∈ js, j < m.cols) →
      js.foldr (fun j acc2 => if m.px i j = 0 then acc2
        else [Point.mk (j : Int) (i : Int)] :: acc2) acc = acc := by
    intro js
    induction js with
    | nil => intro _; rfl
    | cons j js ih =>
      intro hjs
      rw [List.foldr_cons, ih (fun k hk => hjs k (List.mem_cons_of_mem _ hk)),
        if_pos (h i j hi (hjs j (List.mem_cons_self _ _)))]
  exact this _ (fun j hj => List.mem_range.mp hj)

theorem pixelContours_noForeground (m : Mat Nat) (h : m.noForeground) : pixelContours m = [] := by
  unfold pixelContours
  have : ∀ (is : List Nat), (∀ i ∈ is, i < m.rows) →
      is.foldr (fun i acc => rowContours m i acc) [] = [] := by
    intro is
    induction is with
    | nil => intro _; rfl
    | cons i is ih =>
      intro his
      rw [List.foldr_cons, ih (fun k hk => his k (List.mem_cons_of_mem _ hk)),
        rowContours_noForeground m h i (his i (List.mem_cons_self _ _))]
  exact this _ (fun i hi => List.mem_range.mp hi)

/-! ## Claims about the selection loop -/

/-- C3: whenever some contour has positive area, the selection loop ends with
`maxAreaIdx` at the smallest index whose contour has the largest area of the
list (every contour's area is at most it, every earlier contour's area is
strictly below it) and with `maxArea` equal to that largest area. -/
theorem selectLoop_first_max (cs : List Contour) (hpos : ∃ c ∈ cs, 0 < contourArea c) :
    ∃ (k : Nat) (c : Contour), cs[k]? = some c ∧
      (selectLoop cs 0 initState).maxAreaIdx = (k : Int) ∧
      (selectLoop cs 0 initState).maxArea = contourArea c ∧
      (∀ d ∈ cs, contourArea d ≤ contourArea c) ∧
      ∀ (j : Nat) (d : Contour), j < k → cs[j]? = some d → contourArea d < contourArea c := by
  rcases selectLoop_init cs with ⟨_, hall⟩ | ⟨k, c, hk, hidx, harea, _, hmax, hfirst⟩
  · obtain ⟨c, hc, hlt⟩ := hpos
    rw [hall c hc] at hlt
    exact absurd hlt (lt_irrefl _)
  · exact ⟨k, c, hk, hidx, harea, hmax, hfirst⟩

/-- Witness for C3: three squares of contour areas 4, 81 and 81. -/
theorem selectLoop_first_max_witness :
    (∃ c ∈ [squareContour 0 0 3, squareContour 5 5 10, squareContour 20 20 10],
      0 < contourArea c) ∧
    ∃ (k : Nat) (c : Contour),
      [squareContour 0 0 3, squareContour 5 5 10, squareContour 20 20 10][k]? = some c ∧
      (selectLoop [squareContour 0 0 3, squareContour 5 5 10, squareContour 20 20 10]
        0 initState).maxAreaIdx = (k : Int) ∧
      (selectLoop [squareContour 0 0 3, squareContour 5 5 10, squareContour 20 20 10]
        0 initState).maxArea = contourArea c ∧
      (∀ d ∈ [squareContour 0 0 3, squareContour 5 5 10, squareContour 20 20 10],
        contourArea d ≤ contourArea c) ∧
      ∀ (j : Nat) (d : Contour), j < k →
        [squareContour 0 0 3, squareContour 5 5 10, squareContour 20 20 10][j]? = some d →
        contourArea d < contourArea c :=
  have h : ∃ c ∈ [squareContour 0 0 3, squareContour 5 5 10, squareContour 20 20 10],
      0 < contourArea c :=
    ⟨squareContour 0 0 3, by simp, by rw [contourArea_squareContour]; norm_num⟩
  ⟨h, selectLoop_first_max _ h⟩

/-- C9: after the selection loop, `maxArea > 500` forces
`0 ≤ maxAreaIdx < contours.size()`; `maxAreaIdx = -1` holds exactly when no
contour has positive area; so the guard `maxAreaIdx != -1` adds nothing to
`maxArea > 500`, the access `contours[maxAreaIdx]` of the found branch is in
range, and the function never performs an out-of-range access. -/
theorem maxAreaIdx_in_range (cs : List Contour) :
    ((selectLoop cs 0 initState).maxArea > 500 →
      0 ≤ (selectLoop cs 0 initState).maxAreaIdx ∧
      (selectLoop cs 0 initState).maxAreaIdx < (cs.length : Int)) ∧
    ((selectLoop cs 0 initState).maxAreaIdx = -1 ↔ ∀ c ∈ cs, ¬ 0 < contourArea c) ∧
    (((selectLoop cs 0 initState).maxArea > 500 ∧ (selectLoop cs 0 initState).maxAreaIdx ≠ -1) ↔
      (selectLoop cs 0 initState).maxArea > 500) ∧
    ((selectLoop cs 0 initState).maxArea > 500 →
      ∃ c, vectorAt cs (selectLoop cs 0 initState).maxAreaIdx = some c) ∧
    detectYellowContours cs ≠ Except.error Fault.indexOutOfRange := by
  have hdet : detectYellowContours cs ≠ Except.error Fault.indexOutOfRange := by
    rcases detectYellowContours_cases cs with ⟨h, _⟩ | ⟨k, c, _, _, _, _, _, h⟩
    · rw [h]; simp
    · rw [h]; simp
  rcases selectLoop_init cs with ⟨heq, hall⟩ | ⟨k, c, hk, hidx, harea, hpos, hmax, hfirst⟩
  · have hbig : ¬ (selectLoop cs 0 initState).maxArea > 500 := by
      rw [heq]; norm_num [initState]
    refine ⟨fun h => absurd h hbig, ?_, ?_, fun h => absurd h hbig, hdet⟩
    · refine ⟨fun _ c hc => by rw [hall c hc]; exact lt_irrefl _, fun _ => ?_⟩
      rw [heq]; rfl
    · exact ⟨fun h => h.1, fun h => absurd h hbig⟩
  · have hklt : k < cs.length := by
      by_contra hge
      rw [List.getElem?_eq_none (not_lt.mp hge)] at hk
      cases hk
    have hne : (selectLoop cs 0 initState).maxAreaIdx ≠ -1 := by rw [hidx]; omega
    refine ⟨fun _ => ?_, ?_, ?_, fun _ => ?_, hdet⟩
    · rw [hidx]; constructor <;> omega
    · refine ⟨fun h => absurd h hne, fun h => ?_⟩
      exact absurd hpos (h c (List.getElem?_mem hk))
    · exact ⟨fun h => h.1, fun h => ⟨h, hne⟩⟩
    · exact ⟨c, by rw [hidx, vectorAt_natCast]; exact hk⟩

/-! ## Claims about the returned floats -/

/-- C1: the function always returns five floats whose found slot is 1.0 or
0.0, and the found slot is 1.0 if and only if the largest contour area of the
list is strictly greater than 500; a list whose areas are all at most 500
(largest exactly 500, or below), and the empty list, give found = 0.0. -/
theorem detectYellow_found_iff (cs : List Contour) :
    ∃ r : List ℚ, detectYellowContours cs = Except.ok r ∧
      (r[0]? = some 1 ∨ r[0]? = some 0) ∧
      (r[0]? = some 1 ↔
        ∃ c ∈ cs, (∀ d ∈ cs, contourArea d ≤ contourArea c) ∧ 500 < contourArea c) ∧
      ((∀ c ∈ cs, contourArea c ≤ 500) → r[0]? = some 0) ∧
      (cs = [] → r[0]? = some 0) := by
  rcases detectYellowContours_cases cs with ⟨h, hall⟩ | ⟨k, c, hk, hbig, _, hmax, _, h⟩
  · refine ⟨_, h, Or.inr (by simp), ?_, fun _ => by simp, fun _ => by simp⟩
    constructor
    · intro h1; simp at h1
    · rintro ⟨c, hc, _, hlt⟩
      exact absurd hlt (not_lt.mpr (hall c hc))
  · have hmem : c ∈ cs := List.getElem?_mem hk
    refine ⟨_, h, Or.inl (by simp [foundResult]), ?_, ?_, ?_⟩
    · exact ⟨fun _ => ⟨c, hmem, hmax, hbig⟩, fun _ => by simp [foundResult]⟩
    · intro hall
      exact absurd hbig (not_lt.mpr (hall c hmem))
    · rintro rfl
      cases hmem

/-- C4: the function always produces a 5-slot result; whenever the found slot
is 0.0 the result is exactly `[0, 0, 0, 0, 0]`; that is the result for every
list whose areas are all at most 500 and for the empty list. -/
theorem detectYellow_no_detection (cs : List Contour) :
    (∃ r : List ℚ, detectYellowContours cs = Except.ok r ∧ r.length = 5) ∧
    (∀ r : List ℚ, detectYellowContours cs = Except.ok r → r[0]? = some 0 →
      r = [0, 0, 0, 0, 0]) ∧
    ((∀ c ∈ cs, contourArea c ≤ 500) → detectYellowContours cs = Except.ok [0, 0, 0, 0, 0]) ∧
    detectYellowContours [] = Except.ok [0, 0, 0, 0, 0] := by
  have hnil : detectYellowContours [] = Except.ok [0, 0, 0, 0, 0] := by
    rcases detectYellowContours_cases [] with ⟨h, _⟩ | ⟨k, c, hk, _⟩
    · exact h
    · simp at hk
  rcases detectYellowContours_cases cs with ⟨h, hall⟩ | ⟨k, c, hk, hbig, _, hmax, _, h⟩
  · refine ⟨⟨_, h, rfl⟩, ?_, fun _ => h, hnil⟩
    intro r hr _
    rw [h] at hr
    exact (Except.ok.inj hr).symm
  · refine ⟨⟨_, h, rfl⟩, ?_, ?_, hnil⟩
    · intro r hr h0
      rw [h] at hr
      have := Except.ok.inj hr
      subst this
      simp [foundResult] at h0
    · intro hall
      exact absurd hbig (not_lt.mpr (hall c (List.getElem?_mem hk)))

/-- C2: whenever the found slot is 1.0, the result is `[1, left, top, right,
bottom]` for the contour at index `maxAreaIdx`, with `left` the least `x` and
`top` the least `y` over all its points, and `right - 1` the greatest `x` and
`bottom - 1` the greatest `y` (exclusive upper bounds `max x + 1`, `max y + 1`). -/
theorem detectYellow_box (cs : List Contour) (r : List ℚ)
    (hr : detectYellowContours cs = Except.ok r) (hfound : r[0]? = some 1) :
    ∃ (k : Nat) (c : Contour), cs[k]? = some c ∧
      (selectLoop cs 0 initState).maxAreaIdx = (k : Int) ∧
      ∃ left top right bottom : Int,
        r = [1, (left : ℚ), (top : ℚ), (right : ℚ), (bottom : ℚ)] ∧
        IsLeast {v : Int | ∃ p ∈ c, p.x = v} left ∧
        IsLeast {v : Int | ∃ p ∈ c, p.y = v} top ∧
        IsGreatest {v : Int | ∃ p ∈ c, p.x = v} (right - 1) ∧
        IsGreatest {v : Int | ∃ p ∈ c, p.y = v} (bottom - 1) := by
  rcases detectYellowContours_cases cs with ⟨h, _⟩ | ⟨k, c, hk, hbig, hidx, _, _, h⟩
  · rw [h] at hr
    have := Except.ok.inj hr
    subst this
    simp at hfound
  · rw [h] at hr
    have hreq := Except.ok.inj hr
    have hpos : 0 < contourArea c := lt_trans (by norm_num) hbig
    obtain ⟨hx, hy, hX, hY⟩ := boundingRect_spec c (ne_nil_of_area_pos c hpos)
    exact ⟨k, c, hk, hidx, (boundingRect c).x, (boundingRect c).y,
      (boundingRect c).x + (boundingRect c).width, (boundingRect c).y + (boundingRect c).height,
      hreq.symm, hx, hy, hX, hY⟩

/-- Witness for C2: one 24-pixel square at the origin, result `[1, 0, 0, 24, 24]`. -/
theorem detectYellow_box_witness :
    ∃ (k : Nat) (c : Contour), [squareContour 0 0 24][k]? = some c ∧
      (selectLoop [squareContour 0 0 24] 0 initState).maxAreaIdx = (k : Int) ∧
      ∃ left top right bottom : Int,
        ([1, 0, 0, 24, 24] : List ℚ) = [1, (left : ℚ), (top : ℚ), (right : ℚ), (bottom : ℚ)] ∧
        IsLeast {v : Int | ∃ p ∈ c, p.x = v} left ∧
        IsLeast {v : Int | ∃ p ∈ c, p.y = v} top ∧
        IsGreatest {v : Int | ∃ p ∈ c, p.x = v} (right - 1) ∧
        IsGreatest {v : Int | ∃ p ∈ c, p.y = v} (bottom - 1) :=
  detectYellow_box [squareContour 0 0 24] [1, 0, 0, 24, 24] detectYellowContours_square24
    (by simp)

/-- C10: whenever the found slot is 1.0 the reported box is non-degenerate:
`right - left ≥ 2` and `bottom - top ≥ 2`, hence `left < right` and
`top < bottom`. -/
theorem detectYellow_box_nondegenerate (cs : List Contour) (r : List ℚ)
    (hr : detectYellowContours cs = Except.ok r) (hfound : r[0]? = some 1) :
    ∃ left top right bottom : ℚ, r = [1, left, top, right, bottom] ∧
      2 ≤ right - left ∧ 2 ≤ bottom - top ∧ left < right ∧ top < bottom := by
  rcases detectYellowContours_cases cs with ⟨h, _⟩ | ⟨k, c, hk, hbig, hidx, _, _, h⟩
  · rw [h] at hr
    have := Except.ok.inj hr
    subst this
    simp at hfound
  · rw [h] at hr
    have hreq := Except.ok.inj hr
    have hpos : 0 < contourArea c := lt_trans (by norm_num) hbig
    obtain ⟨hw, hh⟩ := boundingRect_extent_ge_two c hpos
    have hw2 : (2 : ℚ) ≤ ((boundingRect c).width : ℚ) := by exact_mod_cast hw
    have hh2 : (2 : ℚ) ≤ ((boundingRect c).height : ℚ) := by exact_mod_cast hh
    refine ⟨_, _, _, _, hreq.symm, ?_, ?_, ?_, ?_⟩ <;> push_cast <;> linarith

/-- Witness for C10: one 24-pixel square at the origin, result `[1, 0, 0, 24, 24]`. -/
theorem detectYellow_box_nondegenerate_witness :
    ∃ left top right bottom : ℚ, ([1, 0, 0, 24, 24] : List ℚ) = [1, left, top, right, bottom] ∧
      2 ≤ right - left ∧ 2 ≤ bottom - top ∧ left < right ∧ top < bottom :=
  detectYellow_box_nondegenerate [squareContour 0 0 24] [1, 0, 0, 24, 24]
    detectYellowContours_square24 (by simp)

/-! ## The synthetic square -/

/-- C5, counterexample: a filled square of side 23 has pixel area
`23 * 23 = 529 > 500`, yet its corner contour has area `22 * 22 = 484`, and the
function returns `[0, 0, 0, 0, 0]` instead of `[1, 0, 0, 23, 23]`. -/
theorem square_side23_not_found :
    23 * 23 > 500 ∧ contourArea (squareContour 0 0 23) = 484 ∧
    detectYellowContours [squareContour 0 0 23] = Except.ok [0, 0, 0, 0, 0] ∧
    detectYellowContours [squareContour 0 0 23] ≠ Except.ok [1, 0, 0, 23, 23] := by
  refine ⟨by norm_num, ?_, detectYellowContours_square23, ?_⟩
  · rw [contourArea_squareContour]; norm_num
  · rw [detectYellowContours_square23]
    intro h
    have := Except.ok.inj h
    simp at this

/-- C5, amended: the corner contour of a filled square of side `n` at
`(x0, y0)` has area `(n-1) * (n-1)`; whenever that contour area exceeds 500
(that is, `n ≥ 24`) the function returns found = 1.0 and the square's true box
`(x0, y0, x0 + n, y0 + n)`. -/
theorem detectYellow_square (x0 y0 : Int) (n : Nat)
    (harea : 500 < ((n : Int) - 1) * ((n : Int) - 1)) :
    contourArea (squareContour x0 y0 n) = ((((n : Int) - 1) * ((n : Int) - 1) : Int) : ℚ) ∧
    detectYellowContours [squareContour x0 y0 n] =
      Except.ok [1, (x0 : ℚ), (y0 : ℚ), ((x0 + (n : Int) : Int) : ℚ),
        ((y0 + (n : Int) : Int) : ℚ)] := by
  refine ⟨contourArea_squareContour x0 y0 n, ?_⟩
  have hn : 1 ≤ n := by
    rcases Nat.eq_zero_or_pos n with h | h
    · subst h; norm_num at harea
    · exact h
  have hbig : 500 < contourArea (squareContour x0 y0 n) := by
    rw [contourArea_squareContour]; exact_mod_cast harea
  rcases detectYellowContours_cases [squareContour x0 y0 n] with
    ⟨_, hall⟩ | ⟨k, c, hk, _, _, _, _, h⟩
  · exact absurd hbig (not_lt.mpr (hall _ (List.mem_singleton_self _)))
  · have hc : c = squareContour x0 y0 n := List.mem_singleton.mp (List.getElem?_mem hk)
    rw [h, hc, foundResult, boundingRect_squareContour x0 y0 n hn]

/-- Witness for C5 (amended): a square of side 24 at `(3, 7)`. -/
theorem detectYellow_square_witness :
    contourArea (squareContour 3 7 24) = ((((24 : Nat) : Int) - 1) * (((24 : Nat) : Int) - 1) : Int) ∧
    detectYellowContours [squareContour 3 7 24] =
      Except.ok [1, ((3 : Int) : ℚ), ((7 : Int) : ℚ), ((3 + ((24 : Nat) : Int) : Int) : ℚ),
        ((7 + ((24 : Nat) : Int) : Int) : ℚ)] :=
  detectYellow_square 3 7 24 (by decide)

/-! ## Order independence -/

/-- C6: for two contours of different areas, the larger above 500, the result
on `[a, b]` equals the result on `[b, a]`, and it is the result for the larger
contour alone, `[1, box of the larger]`; and for every contour list with one
contour whose area is strictly above the area of every other contour, the
result is the same for every permutation of the list. -/
theorem detectYellow_order_independent :
    (∀ a b : Contour, contourArea a ≠ contourArea b →
      500 < max (contourArea a) (contourArea b) →
      detectYellowContours [a, b] = detectYellowContours [b, a] ∧
      detectYellowContours [a, b] =
        detectYellowContours [if contourArea b < contourArea a then a else b] ∧
      detectYellowContours [a, b] =
        Except.ok (foundResult (if contourArea b < contourArea a then a else b))) ∧
    (∀ (cs cs' : List Contour) (c : Contour), cs.Perm cs' → c ∈ cs →
      (∀ d ∈ cs, d ≠ c → contourArea d < contourArea c) →
      detectYellowContours cs = detectYellowContours cs') := by
  constructor
  · intro a b hne hbig
    by_cases hlt : contourArea b < contourArea a
    · have hbig' : 500 < contourArea a := by rwa [max_eq_left (le_of_lt hlt)] at hbig
      have h1 : detectYellowContours [a, b] = detectYellowContours [a] :=
        detectYellowContours_unique_max [a, b] a (by simp) (by
          intro d hd hda
          simp only [List.mem_cons, List.mem_singleton, List.not_mem_nil, or_false] at hd
          rcases hd with h | h
          · exact absurd h hda
          · rw [h]; exact hlt)
      have h2 : detectYellowContours [b, a] = detectYellowContours [a] :=
        detectYellowContours_unique_max [b, a] a (by simp) (by
          intro d hd hda
          simp only [List.mem_cons, List.mem_singleton, List.not_mem_nil, or_false] at hd
          rcases hd with h | h
          · rw [h]; exact hlt
          · exact absurd h hda)
      simp only [hlt, if_true]
      exact ⟨h1.trans h2.symm, h1, h1.trans (detectYellowContours_singleton a hbig')⟩
    · have hlt' : contourArea a < contourArea b := lt_of_le_of_ne (not_lt.mp hlt) hne
      have hbig' : 500 < contourArea b := by rwa [max_eq_right (le_of_lt hlt')] at hbig
      have h1 : detectYellowContours [a, b] = detectYellowContours [b] :=
        detectYellowContours_unique_max [a, b] b (by simp) (by
          intro d hd hdb
          simp only [List.mem_cons, List.mem_singleton, List.not_mem_nil, or_false] at hd
          rcases hd with h | h
          · rw [h]; exact hlt'
          · exact absurd h hdb)
      have h2 : detectYellowContours [b, a] = detectYellowContours [b] :=
        detectYellowContours_unique_max [b, a] b (by simp) (by
          intro d hd hdb
          simp only [List.mem_cons, List.mem_singleton, List.not_mem_nil, or_false] at hd
          rcases hd with h | h
          · exact absurd h hdb
          · rw [h]; exact hlt')
      simp only [hlt, if_false]
      exact ⟨h1.trans h2.symm, h1, h1.trans (detectYellowContours_singleton b hbig')⟩
  · intro cs cs' c hperm hc huniq
    have h1 := detectYellowContours_unique_max cs c hc huniq
    have h2 := detectYellowContours_unique_max cs' c (hperm.mem_iff.mp hc)
      (fun d hd hdc => huniq d (hperm.mem_iff.mpr hd) hdc)
    exact h1.trans h2.symm

/-- Witness for C6: a square of side 30 (contour area 841) and a square of
side 10 (contour area 81), in both orders; and with a third square of side 3
(contour area 4), in two orders. -/
theorem detectYellow_order_independent_witness :
    detectYellowContours [squareContour 0 0 30, squareContour 40 40 10] =
      detectYellowContours [squareContour 40 40 10, squareContour 0 0 30] ∧
    detectYellowContours [squareContour 40 40 10, squareContour 0 0 30] =
      Except.ok [1, 0, 0, 30, 30] ∧
    detectYellowContours [squareContour 40 40 10, squareContour 0 0 30, squareContour 9 9 3] =
      detectYellowContours [squareContour 9 9 3, squareContour 40 40 10, squareContour 0 0 30] := by
  have ha : contourArea (squareContour 0 0 30) = 841 := by
    rw [contourArea_squareContour]; norm_num
  have hb : contourArea (squareContour 40 40 10) = 81 := by
    rw [contourArea_squareContour]; norm_num
  have h := detectYellow_order_independent.1 (squareContour 0 0 30) (squareContour 40 40 10)
    (by rw [ha, hb]; norm_num) (by rw [ha, hb]; norm_num)
  have hc : contourArea (squareContour 9 9 3) = 4 := by
    rw [contourArea_squareContour]; norm_num
  refine ⟨h.1, ?_, ?_⟩
  · rw [← h.1, h.2.2, ha, hb]
    norm_num [foundResult, boundingRect_squareContour]
  · refine detectYellow_order_independent.2 _ _ (squareContour 0 0 30)
      (List.perm_append_comm :
        List.Perm ([squareContour 40 40 10, squareContour 0 0 30] ++ [squareContour 9 9 3])
          ([squareContour 9 9 3] ++ [squareContour 40 40 10, squareContour 0 0 30]))
      (by simp) ?_
    intro d hd hne
    simp only [List.cons_append, List.nil_append, List.mem_cons, List.mem_singleton,
      List.not_mem_nil, or_false] at hd
    rcases hd with h1 | h1 | h1
    · rw [h1, ha, hb]; norm_num
    · exact absurd h1 hne
    · rw [h1, ha, hc]; norm_num

/-! ## The area formula -/

/-- C7: the contour area is unchanged by any cyclic rotation of the point list,
unchanged by reversing the point list, and never negative. -/
theorem contourArea_invariant :
    (∀ (c : Contour) (n : Nat), contourArea (c.rotate n) = contourArea c) ∧
    (∀ c : Contour, contourArea c.reverse = contourArea c) ∧
    ∀ c : Contour, 0 ≤ contourArea c := by
  refine ⟨fun c n => ?_, fun c => ?_, fun c => abs_nonneg _⟩
  · unfold contourArea
    rw [shoelace_rotate]
  · unfold contourArea
    rw [shoelace_reverse]
    push_cast
    rw [neg_mul, abs_neg]

/-! ## The all-black frame -/

/-- C8: for every frame size, when the bitmap is acquired and every pixel has
`R = G = B = 0`, each pixel converts to HSV value 0, the mask has no foreground
pixel, an extractor that reports nothing for such a mask reports no contour,
and the function returns `[0, 0, 0, 0, 0]`. -/
theorem detectYellow_black_frame (findContours : Mat Nat → List Contour) (bitmap : Bitmap)
    (hinfo : 0 ≤ bitmap.getInfo) (hlock : 0 ≤ bitmap.lockPixels)
    (hempty : ∀ m : Mat Nat, m.noForeground → findContours m = [])
    (hblack : ∀ i j, i < bitmap.height → j < bitmap.width →
      (bitmap.pixels i j).r = 0 ∧ (bitmap.pixels i j).g = 0 ∧ (bitmap.pixels i j).b = 0) :
    (∀ i j, i < bitmap.height → j < bitmap.width →
      (rgb2hsv (rgba2rgb (bitmap.pixels i j))).v = 0 ∧
      inRangePx lower upper (rgb2hsv (rgba2rgb (bitmap.pixels i j))) = 0) ∧
    (yellowMask ⟨bitmap.height, bitmap.width, bitmap.pixels⟩).noForeground ∧
    findContours (yellowMask ⟨bitmap.height, bitmap.width, bitmap.pixels⟩) = [] ∧
    detectYellow findContours bitmap = Except.ok [0, 0, 0, 0, 0] := by
  have hpx : ∀ i j, i < bitmap.height → j < bitmap.width →
      (rgb2hsv (rgba2rgb (bitmap.pixels i j))).v = 0 ∧
      inRangePx lower upper (rgb2hsv (rgba2rgb (bitmap.pixels i j))) = 0 := by
    intro i j hi hj
    obtain ⟨hr, hg, hb⟩ := hblack i j hi hj
    have hv := rgb2hsv_black_v (bitmap.pixels i j) hr hg hb
    exact ⟨hv, inRangePx_of_v_zero _ hv⟩
  have hmask : (yellowMask ⟨bitmap.height, bitmap.width, bitmap.pixels⟩).noForeground := by
    intro i j hi hj
    exact (hpx i j hi hj).2
  have hnone := hempty _ hmask
  refine ⟨hpx, hmask, hnone, ?_⟩
  unfold detectYellow
  rw [if_neg (not_lt.mpr hinfo), if_neg (not_lt.mpr hlock)]
  simp only [hnone]
  exact (detectYellowContours_cases []).elim (fun h => h.1)
    (fun ⟨k, c, hk, _⟩ => by simp at hk)

/-- Witness for C8: a 2 x 3 opaque black bitmap and the per-pixel extractor. -/
theorem detectYellow_black_frame_witness :
    (∀ i j, i < blackBitmap.height → j < blackBitmap.width →
      (rgb2hsv (rgba2rgb (blackBitmap.pixels i j))).v = 0 ∧
      inRangePx lower upper (rgb2hsv (rgba2rgb (blackBitmap.pixels i j))) = 0) ∧
    (yellowMask ⟨blackBitmap.height, blackBitmap.width, blackBitmap.pixels⟩).noForeground ∧
    pixelContours (yellowMask ⟨blackBitmap.height, blackBitmap.width, blackBitmap.pixels⟩) = [] ∧
    detectYellow pixelContours blackBitmap = Except.ok [0, 0, 0, 0, 0] :=
  detectYellow_black_frame pixelContours blackBitmap (by decide) (by decide)
    pixelContours_noForeground (fun _ _ _ _ => ⟨rfl, rfl, rfl⟩)

end RobotArm
